import Mathlib

/-!
Shallow embedding of the first-fit free-list allocator in
src/memory-allocation.c, together with theorems checking the claims of
the specification against it.

The backing store is a flat byte range; pointers and sizes are modelled
as natural numbers.  The C code works with 32-bit unsigned values; every
state considered by the theorems below keeps all quantities far below
2^32 and all block sizes multiples of 8 (which is what the allocator
itself produces), so no unsigned wrap-around occurs on the modelled
paths and plain Nat arithmetic is faithful.  The free list, a singly
linked list of block headers kept in memory, is modelled as the Lean
list of its nodes in link order; each node carries the two header fields
the code reads, the start address of the header and the payload size.
In the source, sizeof(header_t) = 8 and initial_offset = 8.

The external growth provider (memoryBytesLength and grow) is modelled by
the memLength field together with a schedule growOks giving the outcomes
of the successive grow calls: an entry true means grow extends the store
by the requested number of 65536-byte pages and returns the new length,
false means grow returns the failure sentinel 0; an exhausted schedule
also fails.
-/

/-- One free-list node: the address of its header and its payload size
(the size field never counts the 8 header bytes). -/
structure Block where
  addr : Nat
  size : Nat
deriving DecidableEq

/-- The process-wide allocator state of memory-allocation.c: free_list
(as the list of nodes in link order), the current backing-store length,
the is_initialised flag, and the schedule of outcomes of future grow
calls. -/
structure AllocState where
  freeList : List Block
  memLength : Nat
  initialised : Bool
  growOks : List Bool
deriving DecidableEq

/-- The padding at line 74 of allocateMemory: round the request up to the
next multiple of 8. -/
def round8 (n : Nat) : Nat := n + (8 - n % 8) % 8

/-- The first-fit scan of allocateMemory (lines 86-135) over the nodes after
the head: previous is a real node, so an exact match unlinks the block by
rewiring previous (line 101) and a split splices the remainder in its place
(line 123).  Returns the rewritten tail of the list and the payload pointer
of the allocated block. -/
def allocScanTail (br : Nat) : List Block → Option (List Block × Nat)
  | [] => none
  | c :: rest =>
    if c.size = br then
      some (rest, c.addr + 8)
    else if br < c.size then
      some (⟨c.addr + (br + 8), c.size - (br + 8)⟩ :: rest, c.addr + 8)
    else
      match allocScanTail br rest with
      | some (fl, p) => some (c :: fl, p)
      | none => none

/-- The first-fit scan of allocateMemory (lines 86-135) starting at the head.
An exact match at the head executes line 94, free_list = NULL: the whole
list is dropped, not only the matched node.  A split at the head installs
the remainder as the new list head (line 118). -/
def allocScan (br : Nat) : List Block → Option (List Block × Nat)
  | [] => none
  | c :: rest =>
    if c.size = br then
      some ([], c.addr + 8)
    else if br < c.size then
      some (⟨c.addr + (br + 8), c.size - (br + 8)⟩ :: rest, c.addr + 8)
    else
      match allocScanTail br rest with
      | some (fl, p) => some (c :: fl, p)
      | none => none

/-- The insertion loop of freeMemory (lines 163-215) after its first step:
p is the node previous points at and l holds the nodes from current on;
the freed block is (fa, fs).  Mirrors the break condition of line 165, the
merge with current at lines 183-188, the chaining at line 192, the merge
with previous at lines 204-208 and the chaining at line 213.  When the loop
runs off the end (current = NULL) only the previous-side cases run; the
link field of a block reaching freeMemory is always null (lines 43, 95,
102 and 128 clear it), so the list ends at the freed block when it is
appended at the tail. -/
def freeScan (fa fs : Nat) (p : Block) : List Block → List Block
  | [] =>
    if fa = p.addr + 8 + p.size then
      [⟨p.addr, p.size + fs + 8⟩]
    else
      [p, ⟨fa, fs⟩]
  | c :: rest =>
    if p.addr < fa ∧ fa < c.addr then
      if c.addr = fa + 8 + fs then
        if fa = p.addr + 8 + p.size then
          ⟨p.addr, p.size + (fs + c.size + 8) + 8⟩ :: rest
        else
          p :: ⟨fa, fs + c.size + 8⟩ :: rest
      else
        if fa = p.addr + 8 + p.size then
          ⟨p.addr, p.size + fs + 8⟩ :: c :: rest
        else
          p :: ⟨fa, fs⟩ :: c :: rest
    else
      p :: freeScan fa fs c rest

/-- The update freeMemory performs on the free list (lines 153-215): the
empty-list case of line 156; the insert-before-head case, reached through
the condition of line 167 on the first loop iteration (previous = NULL),
where the attach of lines 183-193 runs against the old head and line 199
makes the freed block the new head; otherwise the scan steps once and
continues in freeScan. -/
def freeBlock (fa fs : Nat) : List Block → List Block
  | [] => [⟨fa, fs⟩]
  | h :: rest =>
    if fa < h.addr then
      if h.addr = fa + 8 + fs then
        ⟨fa, fs + h.size + 8⟩ :: rest
      else
        ⟨fa, fs⟩ :: h :: rest
    else
      freeScan fa fs h rest

/-- ensureInitialised (lines 51-67): the first call installs a single free
block at initial_offset = 8 whose size is the backing-store length minus
the header size and the reserved offset; later calls do nothing. -/
def ensureInitialised (st : AllocState) : AllocState :=
  if st.initialised then st
  else ⟨[⟨8, st.memLength - 16⟩], st.memLength, true, st.growOks⟩

/-- freeMemory (lines 144-216).  The C function reads the freed block's
header at ptr - 8; stored_size stands for the size field found there (for
a pointer returned by allocateMemory this is the rounded size recorded at
allocation time). -/
def freeMemory (ptr stored_size : Nat) (st : AllocState) : AllocState :=
  let st1 := ensureInitialised st
  if ptr = 0 then st1
  else { st1 with freeList := freeBlock (ptr - 8) stored_size st1.freeList }

/-- The summation loop of reportFreeMemory (lines 225-231). -/
def sumSizes : List Block → Nat
  | [] => 0
  | b :: rest => b.size + sumSizes rest

/-- reportFreeMemory (lines 218-234): ensure initialisation, then sum the
size fields over the free list (0 for an empty list).  The C function
returns the total cast to double; the model returns the total itself,
together with the state left behind by the initialisation guard. -/
def reportFreeMemory (st : AllocState) : Nat × AllocState :=
  let st1 := ensureInitialised st
  (sumSizes st1.freeList, st1)

/-- getMoreMemory (lines 25-49): add one header to the requirement, round
up to whole 65536-byte pages, record the pre-growth length and ask the
provider to grow.  On failure return NULL without mutating anything; on
success build a header for the new region, size newLength - oldLength - 8
and null link, and hand its payload pointer to freeMemory, then return
free_list.  The Bool of the result is the test free_list != NULL that the
callers apply to the returned pointer. -/
def getMoreMemory (bytes_required : Nat) (st : AllocState) : AllocState × Bool :=
  let br := bytes_required + 8
  let blocks0 := br / 65536
  let blocks := if blocks0 * 65536 < br then blocks0 + 1 else blocks0
  let start := st.memLength
  match st.growOks with
  | [] => (st, false)
  | ok :: rest =>
    if ok then
      let endNew := start + blocks * 65536
      let st1 : AllocState := ⟨st.freeList, endNew, st.initialised, rest⟩
      let st2 := freeMemory (start + 8) (endNew - start - 8) st1
      (st2, !st2.freeList.isEmpty)
    else
      (⟨st.freeList, st.memLength, st.initialised, rest⟩, false)

/-- allocateMemory (lines 69-142), written with explicit fuel so that the
recursive retry of line 141 is structural.  Each recursive call is guarded
by a successful getMoreMemory, which consumes one entry of the growth
schedule, so any fuel above the schedule length gives the behaviour of the
C recursion (theorem allocGo_irrel below); the fuel-0 branch is never
reached from allocateMemory.  The body mirrors the source: ensure
initialisation; pad the request; on an empty free list grow for the padded
request plus header and fail if that fails (lines 77-82); run the
first-fit scan; if no block fits, grow once for the padded request
(line 138) and, on success, re-enter the whole allocation with the padded
request plus header (line 141). -/
def allocGo : Nat → Nat → AllocState → Option Nat × AllocState
  | 0, _, st => (none, st)
  | fuel + 1, bytes_required, st0 =>
    let st := ensureInitialised st0
    let br := round8 bytes_required
    let bph := br + 8
    if st.freeList = [] then
      match getMoreMemory bph st with
      | (st1, false) => (none, st1)
      | (st1, true) =>
        match allocScan br st1.freeList with
        | some (fl, p) => (some p, { st1 with freeList := fl })
        | none =>
          match getMoreMemory br st1 with
          | (st2, false) => (none, st2)
          | (st2, true) => allocGo fuel bph st2
    else
      match allocScan br st.freeList with
      | some (fl, p) => (some p, { st with freeList := fl })
      | none =>
        match getMoreMemory br st with
        | (st3, false) => (none, st3)
        | (st3, true) => allocGo fuel bph st3

/-- allocateMemory with the fuel instantiated to one more than the number
of scheduled grow calls, which is always enough (allocGo_irrel). -/
def allocateMemory (bytes_required : Nat) (st : AllocState) : Option Nat × AllocState :=
  allocGo (st.growOks.length + 1) bytes_required st

/-- Chained well-formedness of a free list relative to a lower address bound
lo and a store length L: node addresses are at least lo, each block lies
inside the store, block sizes are multiples of 8 (every size the allocator
ever writes is one), and each successor starts at or after the end of its
predecessor.  This is the inductive strengthening of the address-ordering
invariant that the operations actually preserve. -/
def goodLB (lo L : Nat) : List Block → Bool
  | [] => true
  | b :: rest =>
    decide (lo ≤ b.addr) && decide (b.addr + 8 + b.size ≤ L) &&
      decide (b.size % 8 = 0) && goodLB (b.addr + 8 + b.size) L rest

/-- Strictly increasing header addresses from head to tail of the free
list, the ordering stated by invariant 3 of the specification. -/
def sortedAddrs : List Block → Bool
  | [] => true
  | [_] => true
  | a :: b :: rest => decide (a.addr < b.addr) && sortedAddrs (b :: rest)

/-- Well-formedness of an allocator state: the store is at least 16 bytes
(a WebAssembly memory is at least one 65536-byte page), its length is a
multiple of 8 (it is a whole number of pages), and the free list satisfies
goodLB within it. -/
def wfState (st : AllocState) : Bool :=
  decide (16 ≤ st.memLength) && decide (st.memLength % 8 = 0) &&
    goodLB 0 st.memLength st.freeList

/-- A valid argument pair for freeMemory: the allocator has been
initialised (a pointer can only have been handed out afterwards), the
pointer lies beyond the reserved low region, the stored size is a multiple
of 8 (allocateMemory only records rounded sizes), the freed block lies
inside the store, and its byte range is disjoint from every block already
on the free list (it is not free yet). -/
def validFree (st : AllocState) (p s : Nat) : Bool :=
  st.initialised && decide (8 ≤ p) && decide (s % 8 = 0) &&
    decide (p - 8 + 8 + s ≤ st.memLength) &&
    st.freeList.all fun b =>
      decide (b.addr + 8 + b.size ≤ p - 8) || decide (p - 8 + 8 + s ≤ b.addr)

/-- Free-list bytes including the 8 header bytes each block occupies: the
total amount of store the free list holds. -/
def freeBytes : List Block → Nat
  | [] => 0
  | b :: rest => b.size + 8 + freeBytes rest

theorem round8_mod (n : Nat) : round8 n % 8 = 0 := by
  unfold round8; omega

theorem round8_eq_of_mod (n : Nat) (h : n % 8 = 0) : round8 n = n := by
  unfold round8; omega

theorem ensureInitialised_of_init {st : AllocState} (h : st.initialised = true) :
    ensureInitialised st = st := by
  simp [ensureInitialised, h]

theorem ensureInitialised_initialised (st : AllocState) :
    (ensureInitialised st).initialised = true := by
  unfold ensureInitialised
  split
  · assumption
  · rfl

theorem ensureInitialised_idem (st : AllocState) :
    ensureInitialised (ensureInitialised st) = ensureInitialised st :=
  ensureInitialised_of_init (ensureInitialised_initialised st)

theorem ensureInitialised_growOks (st : AllocState) :
    (ensureInitialised st).growOks = st.growOks := by
  unfold ensureInitialised
  split <;> rfl

theorem ensureInitialised_memLength (st : AllocState) :
    (ensureInitialised st).memLength = st.memLength := by
  unfold ensureInitialised
  split <;> rfl

theorem freeMemory_growOks (p s : Nat) (st : AllocState) :
    (freeMemory p s st).growOks = st.growOks := by
  unfold freeMemory
  split <;> simp [ensureInitialised_growOks]

theorem freeMemory_initialised (p s : Nat) (st : AllocState) :
    (freeMemory p s st).initialised = true := by
  unfold freeMemory
  split <;> simp [ensureInitialised_initialised]

theorem freeMemory_memLength (p s : Nat) (st : AllocState) :
    (freeMemory p s st).memLength = st.memLength := by
  unfold freeMemory
  split <;> simp [ensureInitialised_memLength]

theorem getMoreMemory_true_growOks {b : Nat} {st st' : AllocState} {flag : Bool}
    (h : getMoreMemory b st = (st', flag)) (hf : flag = true) :
    st'.growOks.length < st.growOks.length := by
  subst hf
  unfold getMoreMemory at h
  rcases hg : st.growOks with _ | ⟨ok, rest⟩ <;> rw [hg] at h
  · simp at h
  · cases ok
    · simp at h
    · simp only [if_pos rfl] at h
      have h1 := congrArg Prod.fst h
      simp at h1
      subst h1
      simp [freeMemory_growOks, hg]

theorem getMoreMemory_initialised {b : Nat} {st : AllocState}
    (h : st.initialised = true) : ((getMoreMemory b st).1).initialised = true := by
  unfold getMoreMemory
  rcases st.growOks with _ | ⟨ok, rest⟩
  · simpa using h
  · cases ok
    · simpa using h
    · simp [freeMemory_initialised]

/-- Fuel irrelevance for the allocGo core: any fuel exceeding the length of
the growth schedule produces the same result, so allocateMemory computes
the value of the C recursion. -/
theorem allocGo_irrel : ∀ f1 f2 n st, st.growOks.length < f1 →
    st.growOks.length < f2 → allocGo f1 n st = allocGo f2 n st := by
  intro f1
  induction f1 with
  | zero => intro f2 n st h1 h2; omega
  | succ f1 ih =>
    intro f2 n st h1 h2
    cases f2 with
    | zero => omega
    | succ f2 =>
      simp only [allocGo]
      have hlen : (ensureInitialised st).growOks.length = st.growOks.length := by
        rw [ensureInitialised_growOks]
      by_cases hE : (ensureInitialised st).freeList = []
      · simp only [if_pos hE]
        rcases hg1 : getMoreMemory (round8 n + 8) (ensureInitialised st) with ⟨st1, flag1⟩
        cases flag1
        · rfl
        · have hlt1 : st1.growOks.length < st.growOks.length := by
            have h := getMoreMemory_true_growOks hg1 rfl
            omega
          rcases hs : allocScan (round8 n) st1.freeList with _ | ⟨fl, p⟩
          · simp only [hs]
            rcases hg2 : getMoreMemory (round8 n) st1 with ⟨st2, flag2⟩
            cases flag2
            · rfl
            · have hlt2 : st2.growOks.length < st1.growOks.length :=
                getMoreMemory_true_growOks hg2 rfl
              exact ih f2 _ st2 (by omega) (by omega)
          · simp only [hs]
      · simp only [if_neg hE]
        rcases hs : allocScan (round8 n) (ensureInitialised st).freeList with _ | ⟨fl, p⟩
        · simp only [hs]
          rcases hg3 : getMoreMemory (round8 n) (ensureInitialised st) with ⟨st3, flag3⟩
          cases flag3
          · rfl
          · have hlt3 : st3.growOks.length < st.growOks.length := by
              have h := getMoreMemory_true_growOks hg3 rfl
              omega
            exact ih f2 _ st3 (by omega) (by omega)
        · simp only [hs]

theorem getMoreMemory_fail {st : AllocState} {rest : List Bool}
    (hg : st.growOks = false :: rest) (b : Nat) :
    getMoreMemory b st = (⟨st.freeList, st.memLength, st.initialised, rest⟩, false) := by
  simp [getMoreMemory, hg]

theorem allocateMemory_empty_grow_fail {st st' : AllocState} {n : Nat}
    (hinit : st.initialised = true) (he : st.freeList = [])
    (hg : getMoreMemory (round8 n + 8) st = (st', false)) :
    allocateMemory n st = (none, st') := by
  unfold allocateMemory
  simp only [allocGo, ensureInitialised_of_init hinit, if_pos he, hg]

theorem allocateMemory_scan_some {st : AllocState} {n : Nat} {fl : List Block} {p : Nat}
    (hinit : st.initialised = true) (hne : st.freeList ≠ [])
    (hs : allocScan (round8 n) st.freeList = some (fl, p)) :
    allocateMemory n st = (some p, { st with freeList := fl }) := by
  unfold allocateMemory
  simp only [allocGo, ensureInitialised_of_init hinit, if_neg hne, hs]

theorem allocateMemory_scan_none_grow_fail {st st' : AllocState} {n : Nat}
    (hinit : st.initialised = true) (hne : st.freeList ≠ [])
    (hs : allocScan (round8 n) st.freeList = none)
    (hg : getMoreMemory (round8 n) st = (st', false)) :
    allocateMemory n st = (none, st') := by
  unfold allocateMemory
  simp only [allocGo, ensureInitialised_of_init hinit, if_neg hne, hs, hg]

theorem allocateMemory_scan_none_grow_ok {st st' : AllocState} {n : Nat}
    (hinit : st.initialised = true) (hne : st.freeList ≠ [])
    (hs : allocScan (round8 n) st.freeList = none)
    (hg : getMoreMemory (round8 n) st = (st', true)) :
    allocateMemory n st = allocateMemory (round8 n + 8) st' := by
  have hlt : st'.growOks.length < st.growOks.length :=
    getMoreMemory_true_growOks hg rfl
  have key : allocGo (st.growOks.length + 1) n st =
      allocGo st.growOks.length (round8 n + 8) st' := by
    simp only [allocGo, ensureInitialised_of_init hinit, if_neg hne, hs, hg]
  calc allocateMemory n st = allocGo st.growOks.length (round8 n + 8) st' := key
    _ = allocateMemory (round8 n + 8) st' :=
        allocGo_irrel _ _ _ _ (by omega) (by omega)

theorem allocGo_initialised : ∀ fuel n st, st.growOks.length < fuel →
    ((allocGo fuel n st).2).initialised = true := by
  intro fuel
  induction fuel with
  | zero => intro n st h; omega
  | succ fuel ih =>
    intro n st h
    simp only [allocGo]
    have hin : (ensureInitialised st).initialised = true := ensureInitialised_initialised st
    have hlen : (ensureInitialised st).growOks.length = st.growOks.length := by
      rw [ensureInitialised_growOks]
    by_cases hE : (ensureInitialised st).freeList = []
    · simp only [if_pos hE]
      rcases hg1 : getMoreMemory (round8 n + 8) (ensureInitialised st) with ⟨st1, flag1⟩
      have h1 : st1.initialised = true := by
        have hx := getMoreMemory_initialised (b := round8 n + 8) hin
        rw [hg1] at hx; exact hx
      cases flag1
      · simpa using h1
      · rcases hs : allocScan (round8 n) st1.freeList with _ | ⟨fl, p⟩
        · simp only [hs]
          rcases hg2 : getMoreMemory (round8 n) st1 with ⟨st2, flag2⟩
          have h2 : st2.initialised = true := by
            have hx := getMoreMemory_initialised (b := round8 n) h1
            rw [hg2] at hx; exact hx
          cases flag2
          · simpa using h2
          · have hlt1 : st1.growOks.length < st.growOks.length := by
              have hx := getMoreMemory_true_growOks hg1 rfl; omega
            have hlt2 : st2.growOks.length < st1.growOks.length :=
              getMoreMemory_true_growOks hg2 rfl
            exact ih _ st2 (by omega)
        · simp only [hs]; simpa using h1
    · simp only [if_neg hE]
      rcases hs : allocScan (round8 n) (ensureInitialised st).freeList with _ | ⟨fl, p⟩
      · simp only [hs]
        rcases hg3 : getMoreMemory (round8 n) (ensureInitialised st) with ⟨st3, flag3⟩
        have h3 : st3.initialised = true := by
          have hx := getMoreMemory_initialised (b := round8 n) hin
          rw [hg3] at hx; exact hx
        cases flag3
        · simpa using h3
        · have hlt3 : st3.growOks.length < st.growOks.length := by
            have hx := getMoreMemory_true_growOks hg3 rfl; omega
          exact ih _ st3 (by omega)
      · simp only [hs]; simpa using hin

theorem allocateMemory_initialised (n : Nat) (st : AllocState) :
    ((allocateMemory n st).2).initialised = true :=
  allocGo_initialised _ n st (by omega)

theorem allocScanTail_cons_small {br : Nat} {c : Block} (rest : List Block)
    (hc : c.size < br) :
    allocScanTail br (c :: rest) =
      match allocScanTail br rest with
      | some (fl, p) => some (c :: fl, p)
      | none => none := by
  simp only [allocScanTail, if_neg (by omega : ¬c.size = br),
    if_neg (by omega : ¬br < c.size)]

theorem allocScanTail_append {br : Nat} (pre l : List Block)
    (h : ∀ x ∈ pre, x.size < br) :
    allocScanTail br (pre ++ l) =
      match allocScanTail br l with
      | some (fl, p) => some (pre ++ fl, p)
      | none => none := by
  induction pre with
  | nil =>
    simp only [List.nil_append]
    rcases allocScanTail br l with _ | ⟨fl, p⟩ <;> rfl
  | cons c pre ih =>
    have hc := h c (by simp)
    have h2 : ∀ x ∈ pre, x.size < br := fun x hx => h x (by simp [hx])
    rw [List.cons_append, allocScanTail_cons_small _ hc, ih h2]
    rcases allocScanTail br l with _ | ⟨fl, p⟩ <;> rfl

theorem allocScan_cons_small {br : Nat} {c : Block} (rest : List Block) (hc : c.size < br) :
    allocScan br (c :: rest) =
      match allocScanTail br rest with
      | some (fl, p) => some (c :: fl, p)
      | none => none := by
  simp only [allocScan, if_neg (by omega : ¬c.size = br), if_neg (by omega : ¬br < c.size)]

theorem allocScanTail_cons_exact {br : Nat} {b : Block} (post : List Block)
    (hb : b.size = br) :
    allocScanTail br (b :: post) = some (post, b.addr + 8) := by
  simp only [allocScanTail, if_pos hb]

theorem allocScanTail_cons_split {br : Nat} {b : Block} (post : List Block)
    (hb : br < b.size) :
    allocScanTail br (b :: post) =
      some (⟨b.addr + (br + 8), b.size - (br + 8)⟩ :: post, b.addr + 8) := by
  simp only [allocScanTail, if_neg (by omega : ¬b.size = br), if_pos hb]

theorem allocScan_exact {br : Nat} (pre : List Block) (b : Block) (post : List Block)
    (hpre : ∀ x ∈ pre, x.size < br) (hb : b.size = br) :
    allocScan br (pre ++ b :: post) =
      some (if pre = [] then [] else pre ++ post, b.addr + 8) := by
  cases pre with
  | nil => simp [allocScan, hb]
  | cons c pre =>
    have hc := hpre c (by simp)
    rw [List.cons_append, allocScan_cons_small _ hc,
      allocScanTail_append pre _ (fun x hx => hpre x (by simp [hx])),
      allocScanTail_cons_exact post hb]
    simp

theorem allocScan_split {br : Nat} (pre : List Block) (b : Block) (post : List Block)
    (hpre : ∀ x ∈ pre, x.size < br) (hb : br < b.size) :
    allocScan br (pre ++ b :: post) =
      some (pre ++ ⟨b.addr + (br + 8), b.size - (br + 8)⟩ :: post, b.addr + 8) := by
  cases pre with
  | nil =>
    simp only [List.nil_append, allocScan, if_neg (by omega : ¬b.size = br), if_pos hb]
  | cons c pre =>
    have hc := hpre c (by simp)
    rw [List.cons_append, allocScan_cons_small _ hc,
      allocScanTail_append pre _ (fun x hx => hpre x (by simp [hx])),
      allocScanTail_cons_split post hb]
    simp

theorem freeScan_nil (fa fs : Nat) (p : Block) :
    freeScan fa fs p [] =
      if fa = p.addr + 8 + p.size then [⟨p.addr, p.size + fs + 8⟩]
      else [p, ⟨fa, fs⟩] := rfl

theorem freeScan_step {fa fs : Nat} {p c : Block} (rest : List Block)
    (h : ¬(p.addr < fa ∧ fa < c.addr)) :
    freeScan fa fs p (c :: rest) = p :: freeScan fa fs c rest := by
  simp only [freeScan, if_neg h]

theorem freeScan_break_cc {fa fs : Nat} {p c : Block} (rest : List Block)
    (hp : p.addr < fa) (hc : fa < c.addr)
    (hac : c.addr = fa + 8 + fs) (hap : fa = p.addr + 8 + p.size) :
    freeScan fa fs p (c :: rest) =
      ⟨p.addr, p.size + (fs + c.size + 8) + 8⟩ :: rest := by
  simp only [freeScan, if_pos (And.intro hp hc), if_pos hac, if_pos hap]

theorem freeScan_break_c {fa fs : Nat} {p c : Block} (rest : List Block)
    (hp : p.addr < fa) (hc : fa < c.addr)
    (hac : c.addr = fa + 8 + fs) (hap : ¬fa = p.addr + 8 + p.size) :
    freeScan fa fs p (c :: rest) = p :: ⟨fa, fs + c.size + 8⟩ :: rest := by
  simp only [freeScan, if_pos (And.intro hp hc), if_pos hac, if_neg hap]

theorem freeScan_break_p {fa fs : Nat} {p c : Block} (rest : List Block)
    (hp : p.addr < fa) (hc : fa < c.addr)
    (hac : ¬c.addr = fa + 8 + fs) (hap : fa = p.addr + 8 + p.size) :
    freeScan fa fs p (c :: rest) = ⟨p.addr, p.size + fs + 8⟩ :: c :: rest := by
  simp only [freeScan, if_pos (And.intro hp hc), if_neg hac, if_pos hap]

theorem freeScan_break_none {fa fs : Nat} {p c : Block} (rest : List Block)
    (hp : p.addr < fa) (hc : fa < c.addr)
    (hac : ¬c.addr = fa + 8 + fs) (hap : ¬fa = p.addr + 8 + p.size) :
    freeScan fa fs p (c :: rest) = p :: ⟨fa, fs⟩ :: c :: rest := by
  simp only [freeScan, if_pos (And.intro hp hc), if_neg hac, if_neg hap]

theorem freeScan_walk (fa fs : Nat) (init : List Block) :
    ∀ (q : Block) (l : List Block), (∀ x ∈ init, x.addr < fa) → q.addr < fa →
      freeScan fa fs q (init ++ l) =
        (q :: init).dropLast ++ freeScan fa fs (init.getLastD q) l := by
  induction init with
  | nil => intro q l h hq; simp [List.getLastD]
  | cons c init ih =>
    intro q l h hq
    have hc : c.addr < fa := h c (by simp)
    have h2 : ∀ x ∈ init, x.addr < fa := fun x hx => h x (by simp [hx])
    rw [List.cons_append, freeScan_step _ (by omega), ih c l h2 hc,
      List.getLastD_cons]
    rfl

theorem dropLast_append_getLastD (t : List Block) :
    ∀ (h : Block) (l : List Block),
      (h :: t).dropLast ++ (t.getLastD h) :: l = h :: (t ++ l) := by
  induction t with
  | nil => intro h l; simp [List.getLastD]
  | cons c t ih =>
    intro h l
    rw [List.getLastD_cons]
    have e : (h :: c :: t).dropLast = h :: (c :: t).dropLast := rfl
    rw [e, List.cons_append, ih c l]
    rfl

theorem getLastD_mem (t : List Block) : ∀ (h : Block), t.getLastD h ∈ h :: t := by
  induction t with
  | nil => intro h; simp [List.getLastD]
  | cons c t ih =>
    intro h
    rw [List.getLastD_cons]
    have := ih c
    simp at this ⊢
    tauto

theorem freeBlock_cons_ge {fa fs : Nat} {h : Block} (rest : List Block)
    (hge : ¬fa < h.addr) :
    freeBlock fa fs (h :: rest) = freeScan fa fs h rest := by
  simp only [freeBlock, if_neg hge]

theorem freeBlock_cons_lt_adj {fa fs : Nat} {h : Block} (rest : List Block)
    (hlt : fa < h.addr) (hadj : h.addr = fa + 8 + fs) :
    freeBlock fa fs (h :: rest) = ⟨fa, fs + h.size + 8⟩ :: rest := by
  simp only [freeBlock, if_pos hlt, if_pos hadj]

theorem freeBlock_cons_lt_nadj {fa fs : Nat} {h : Block} (rest : List Block)
    (hlt : fa < h.addr) (hadj : ¬h.addr = fa + 8 + fs) :
    freeBlock fa fs (h :: rest) = ⟨fa, fs⟩ :: h :: rest := by
  simp only [freeBlock, if_pos hlt, if_neg hadj]

theorem freeMemory_of_init {st : AllocState} (p s : Nat)
    (hinit : st.initialised = true) (hp : p ≠ 0) :
    freeMemory p s st = { st with freeList := freeBlock (p - 8) s st.freeList } := by
  simp [freeMemory, ensureInitialised_of_init hinit, hp]

theorem sumSizes_append (l1 l2 : List Block) :
    sumSizes (l1 ++ l2) = sumSizes l1 + sumSizes l2 := by
  induction l1 with
  | nil => simp [sumSizes]
  | cons b l1 ih => simp [sumSizes, ih]; omega

theorem reportFreeMemory_of_init {st : AllocState} (hinit : st.initialised = true) :
    reportFreeMemory st = (sumSizes st.freeList, st) := by
  simp [reportFreeMemory, ensureInitialised_of_init hinit]

/-- C4: when the growth provider reports failure (the next grow call returns
the sentinel 0), allocateMemory returns the null failure sentinel and the
whole state except the consumed growth outcome is exactly as before the
growth attempt; in particular the free list is identical. -/
theorem C4_growth_failure_pure (st : AllocState) (n : Nat) (rest : List Bool)
    (hinit : st.initialised = true) (hg : st.growOks = false :: rest)
    (hfit : st.freeList = [] ∨ allocScan (round8 n) st.freeList = none) :
    allocateMemory n st = (none, ⟨st.freeList, st.memLength, st.initialised, rest⟩) := by
  rcases hfit with he | hs
  · exact allocateMemory_empty_grow_fail hinit he (getMoreMemory_fail hg _)
  · by_cases hne : st.freeList = []
    · exact allocateMemory_empty_grow_fail hinit hne (getMoreMemory_fail hg _)
    · exact allocateMemory_scan_none_grow_fail hinit hne hs (getMoreMemory_fail hg _)

theorem C4_growth_failure_pure_witness :
    allocateMemory 4 ⟨[⟨8, 0⟩], 65536, true, [false]⟩ =
      (none, ⟨[⟨8, 0⟩], 65536, true, []⟩) :=
  C4_growth_failure_pure ⟨[⟨8, 0⟩], 65536, true, [false]⟩ 4 [] rfl rfl
    (Or.inr (by decide))

/-- C2 counterexample: from the state with free list [(8,8)], store length
65536 and two successful grow calls scheduled, the request 65528 (whose scan
finds no fit) consumes BOTH scheduled grow calls before succeeding: the
line-141 retry re-enters allocateMemory with the padded size 65536, its scan
fails again because the one new page minus its header is 8 bytes short, and
a second growth plus a second retry (now for 65544 bytes) is needed.  This
falsifies the claim that exactly one growth-bridge call is made per
exhausted scan, that the retry is for the same request, and that the retry
never triggers further growth attempts or deeper recursion. -/
theorem C2_single_retry_counterexample :
    (⟨[⟨8, 8⟩], 65536, true, [true, true]⟩ : AllocState).growOks.length = 2 ∧
    allocateMemory 65528 ⟨[⟨8, 8⟩], 65536, true, [true, true]⟩ =
      (some 65544, ⟨[⟨8, 8⟩, ⟨131088, 131048⟩], 262144, true, []⟩) := by
  constructor
  · rfl
  · decide

/-- C2 amended: when the first-fit scan of a non-empty free list finds no
fit, allocateMemory makes one growth-bridge call for the unpadded rounded
request; on failure it returns the null sentinel immediately, and on
success it re-enters the whole allocation with the rounded request plus one
header (8 bytes more than the original request, not the same request), a
retry that may itself grow and recurse again. -/
theorem C2_retry_shape (st st' : AllocState) (n : Nat) (flag : Bool)
    (hinit : st.initialised = true) (hne : st.freeList ≠ [])
    (hs : allocScan (round8 n) st.freeList = none)
    (hg : getMoreMemory (round8 n) st = (st', flag)) :
    (flag = false → allocateMemory n st = (none, st')) ∧
    (flag = true → allocateMemory n st = allocateMemory (round8 n + 8) st') := by
  constructor
  · intro hf; subst hf
    exact allocateMemory_scan_none_grow_fail hinit hne hs hg
  · intro hf; subst hf
    exact allocateMemory_scan_none_grow_ok hinit hne hs hg

theorem C2_retry_shape_witness :
    allocateMemory 20 ⟨[⟨8, 8⟩], 65536, true, [false]⟩ =
      (none, ⟨[⟨8, 8⟩], 65536, true, []⟩) :=
  (C2_retry_shape ⟨[⟨8, 8⟩], 65536, true, [false]⟩ ⟨[⟨8, 8⟩], 65536, true, []⟩
    20 false rfl (by decide) (by decide) (by decide)).1 rfl

/-- C8: the initialisation guard runs its body at most once: on an
uninitialised state it installs exactly one free block at the reserved
boundary of size memLength - 16, on an initialised state it is the
identity, it is idempotent, it leaves the free-space total unchanged, and
after any operation (allocateMemory, freeMemory, reportFreeMemory) a
further guard invocation changes nothing. -/
theorem C8_init_idempotent (st : AllocState) (n p s : Nat) :
    (st.initialised = false →
      ensureInitialised st =
        ⟨[⟨8, st.memLength - 16⟩], st.memLength, true, st.growOks⟩) ∧
    (st.initialised = true → ensureInitialised st = st) ∧
    ensureInitialised (ensureInitialised st) = ensureInitialised st ∧
    (reportFreeMemory (ensureInitialised st)).1 = (reportFreeMemory st).1 ∧
    ensureInitialised (allocateMemory n st).2 = (allocateMemory n st).2 ∧
    ensureInitialised (freeMemory p s st) = freeMemory p s st ∧
    ensureInitialised (reportFreeMemory st).2 = (reportFreeMemory st).2 := by
  refine ⟨?_, ?_, ensureInitialised_idem st, ?_, ?_, ?_, ?_⟩
  · intro h; simp [ensureInitialised, h]
  · intro h; exact ensureInitialised_of_init h
  · simp [reportFreeMemory, ensureInitialised_idem]
  · exact ensureInitialised_of_init (allocateMemory_initialised n st)
  · exact ensureInitialised_of_init (freeMemory_initialised p s st)
  · simp only [reportFreeMemory]
    exact ensureInitialised_idem st

theorem C8_init_idempotent_witness :
    ensureInitialised ⟨[], 65536, false, []⟩ = ⟨[⟨8, 65520⟩], 65536, true, []⟩ ∧
    ensureInitialised (ensureInitialised ⟨[], 65536, false, []⟩) =
      ensureInitialised ⟨[], 65536, false, []⟩ := by
  constructor
  · have h := (C8_init_idempotent ⟨[], 65536, false, []⟩ 0 0 0).1 rfl
    simpa using h
  · exact (C8_init_idempotent ⟨[], 65536, false, []⟩ 0 0 0).2.2.1

/-- C9 counterexample: on the fresh, never-initialised state the C code runs
ensureInitialised before the null test, so freeMemory(NULL) does mutate the
free list, installing the initial block; the claim quantifies over every
allocator state and is therefore false on this one. -/
theorem C9_null_free_counterexample :
    (freeMemory 0 0 ⟨[], 65536, false, []⟩).freeList ≠
      (⟨[], 65536, false, []⟩ : AllocState).freeList := by
  decide

/-- C9 amended: freeing the null sentinel performs exactly the lazy
initialisation and nothing else; on an initialised state (any state after a
first operation) it leaves the whole state, in particular the free list,
unmutated. -/
theorem C9_null_free_amended (st : AllocState) (s : Nat) :
    freeMemory 0 s st = ensureInitialised st ∧
    (st.initialised = true → freeMemory 0 s st = st) := by
  constructor
  · simp [freeMemory]
  · intro h; simp [freeMemory, ensureInitialised_of_init h]

theorem C9_null_free_amended_witness :
    freeMemory 0 4 ⟨[⟨8, 16⟩], 65536, true, []⟩ = ⟨[⟨8, 16⟩], 65536, true, []⟩ :=
  (C9_null_free_amended ⟨[⟨8, 16⟩], 65536, true, []⟩ 4).2 rfl

/-- C1: the code violates this claim on the head case.  An exact match at
the head of the free list executes free_list = NULL (line 94), discarding
every successor block instead of unlinking only the matched node.  From a
fresh 65536-byte store: allocate 16 twice, free the first pointer, then
allocate 16 again; the last call exact-matches the head block (8,16) of
the free list [(8,16), (56,65472)] and empties the whole list, leaking the
65472-byte successor: the free total collapses from 65488 to 0 although
only 16 payload bytes were handed out. -/
theorem C1_head_exact_drops_successors :
    allocateMemory 16 ⟨[], 65536, false, []⟩ =
      (some 16, ⟨[⟨32, 65496⟩], 65536, true, []⟩) ∧
    allocateMemory 16 ⟨[⟨32, 65496⟩], 65536, true, []⟩ =
      (some 40, ⟨[⟨56, 65472⟩], 65536, true, []⟩) ∧
    freeMemory 16 16 ⟨[⟨56, 65472⟩], 65536, true, []⟩ =
      ⟨[⟨8, 16⟩, ⟨56, 65472⟩], 65536, true, []⟩ ∧
    (reportFreeMemory ⟨[⟨8, 16⟩, ⟨56, 65472⟩], 65536, true, []⟩).1 = 65488 ∧
    allocateMemory 16 ⟨[⟨8, 16⟩, ⟨56, 65472⟩], 65536, true, []⟩ =
      (some 16, ⟨[], 65536, true, []⟩) ∧
    (reportFreeMemory ⟨[], 65536, true, []⟩).1 = 0 := by
  decide

/-- C6: for every allocation whose rounded size is strictly below the size
of the first-fit free block (all earlier blocks being too small), the split
leaves a remainder free block starting at offset roundedSize + 8 inside the
original block, of size originalSize - roundedSize - 8, standing exactly in
the original block's place in the free list (so it inherits its successor),
and returns the original block's payload pointer.  The hypothesis that the
block size is a multiple of 8 holds for every block the allocator creates
and keeps the Nat subtraction of the model aligned with the unsigned C
subtraction. -/
theorem C6_split_correct (st : AllocState) (n : Nat) (pre : List Block)
    (b : Block) (post : List Block)
    (hinit : st.initialised = true)
    (hfl : st.freeList = pre ++ b :: post)
    (hpre : ∀ x ∈ pre, x.size < round8 n)
    (hgt : round8 n < b.size) (_hb8 : b.size % 8 = 0) :
    allocateMemory n st =
      (some (b.addr + 8),
        { st with freeList :=
            pre ++ ⟨b.addr + (round8 n + 8), b.size - (round8 n + 8)⟩ :: post }) := by
  have hne : st.freeList ≠ [] := by rw [hfl]; simp
  have hs := allocScan_split pre b post hpre hgt
  rw [← hfl] at hs
  exact allocateMemory_scan_some hinit hne hs

theorem C6_split_correct_witness :
    allocateMemory 4 ⟨[⟨8, 65520⟩], 65536, true, []⟩ =
      (some 16, ⟨[⟨24, 65504⟩], 65536, true, []⟩) := by
  have h := C6_split_correct ⟨[⟨8, 65520⟩], 65536, true, []⟩ 4 [] ⟨8, 65520⟩ []
    rfl rfl (by intro x hx; simp at hx) (by decide) (by decide)
  simpa [round8] using h

/-- C5: a pair of adjacent blocks carved out of one free block of size
s1 + s2 + 8 by two allocations (a split followed by an exact fit), when
freed in either order with nothing in between, coalesces back into a
single free block whose size is the sum of the two sizes plus one header
(8 bytes). -/
theorem C5_split_coalesce (a s1 s2 L : Nat) (g : List Bool)
    (h1 : s1 % 8 = 0) (h2 : s2 % 8 = 0) :
    allocateMemory s1 ⟨[⟨a, s1 + s2 + 8⟩], L, true, g⟩ =
      (some (a + 8), ⟨[⟨a + s1 + 8, s2⟩], L, true, g⟩) ∧
    allocateMemory s2 ⟨[⟨a + s1 + 8, s2⟩], L, true, g⟩ =
      (some (a + s1 + 16), ⟨[], L, true, g⟩) ∧
    freeMemory (a + s1 + 16) s2 (freeMemory (a + 8) s1 ⟨[], L, true, g⟩) =
      ⟨[⟨a, s1 + s2 + 8⟩], L, true, g⟩ ∧
    freeMemory (a + 8) s1 (freeMemory (a + s1 + 16) s2 ⟨[], L, true, g⟩) =
      ⟨[⟨a, s1 + s2 + 8⟩], L, true, g⟩ := by
  have hr1 : round8 s1 = s1 := round8_eq_of_mod s1 h1
  have hr2 : round8 s2 = s2 := round8_eq_of_mod s2 h2
  have eb : (⟨a + (s1 + 8), s1 + s2 + 8 - (s1 + 8)⟩ : Block) = ⟨a + s1 + 8, s2⟩ := by
    have e1 : a + (s1 + 8) = a + s1 + 8 := by omega
    have e2 : s1 + s2 + 8 - (s1 + 8) = s2 := by omega
    rw [e1, e2]
  refine ⟨?_, ?_, ?_, ?_⟩
  · have hs : allocScan (round8 s1) [⟨a, s1 + s2 + 8⟩] =
        some ([⟨a + s1 + 8, s2⟩], a + 8) := by
      rw [hr1, show [(⟨a, s1 + s2 + 8⟩ : Block)] =
          [] ++ ⟨a, s1 + s2 + 8⟩ :: [] from rfl,
        allocScan_split [] _ [] (by simp) (by simp; omega)]
      rw [List.nil_append, eb]
    exact allocateMemory_scan_some rfl (by simp) hs
  · have hs : allocScan (round8 s2) [⟨a + s1 + 8, s2⟩] =
        some ([], a + s1 + 16) := by
      rw [hr2, show [(⟨a + s1 + 8, s2⟩ : Block)] =
          [] ++ ⟨a + s1 + 8, s2⟩ :: [] from rfl,
        allocScan_exact [] _ [] (by simp) (by simp)]
      have e3 : a + s1 + 8 + 8 = a + s1 + 16 := by omega
      simp [e3]
    exact allocateMemory_scan_some rfl (by simp) hs
  · have e4 : a + 8 - 8 = a := by omega
    have e5 : a + s1 + 16 - 8 = a + s1 + 8 := by omega
    have hge : ¬(a + s1 + 8 < (⟨a, s1⟩ : Block).addr) := by
      show ¬(a + s1 + 8 < a); omega
    have hpos : a + s1 + 8 = (⟨a, s1⟩ : Block).addr + 8 + (⟨a, s1⟩ : Block).size := by
      show a + s1 + 8 = a + 8 + s1; omega
    have stepA : freeMemory (a + 8) s1 ⟨[], L, true, g⟩ = ⟨[⟨a, s1⟩], L, true, g⟩ := by
      rw [freeMemory_of_init _ _ rfl (by omega), e4]; rfl
    rw [stepA, freeMemory_of_init _ _ rfl (by omega), e5,
      freeBlock_cons_ge _ hge, freeScan_nil, if_pos hpos]
  · have e4 : a + 8 - 8 = a := by omega
    have e5 : a + s1 + 16 - 8 = a + s1 + 8 := by omega
    have hlt : a < (⟨a + s1 + 8, s2⟩ : Block).addr := by
      show a < a + s1 + 8; omega
    have hadj : (⟨a + s1 + 8, s2⟩ : Block).addr = a + 8 + s1 := by
      show a + s1 + 8 = a + 8 + s1; omega
    have stepB : freeMemory (a + s1 + 16) s2 ⟨[], L, true, g⟩ =
        ⟨[⟨a + s1 + 8, s2⟩], L, true, g⟩ := by
      rw [freeMemory_of_init _ _ rfl (by omega), e5]; rfl
    rw [stepB, freeMemory_of_init _ _ rfl (by omega), e4,
      freeBlock_cons_lt_adj _ hlt hadj]

theorem C5_split_coalesce_witness :
    allocateMemory 16 ⟨[⟨8, 48⟩], 65536, true, []⟩ =
      (some 16, ⟨[⟨32, 24⟩], 65536, true, []⟩) ∧
    allocateMemory 24 ⟨[⟨32, 24⟩], 65536, true, []⟩ =
      (some 40, ⟨[], 65536, true, []⟩) ∧
    freeMemory 40 24 (freeMemory 16 16 ⟨[], 65536, true, []⟩) =
      ⟨[⟨8, 48⟩], 65536, true, []⟩ ∧
    freeMemory 16 16 (freeMemory 40 24 ⟨[], 65536, true, []⟩) =
      ⟨[⟨8, 48⟩], 65536, true, []⟩ := by
  have h := C5_split_coalesce 8 16 24 65536 [] (by decide) (by decide)
  simpa using h

theorem sumSizes_middle (pre post : List Block) (x : Block) :
    sumSizes (pre ++ x :: post) = sumSizes pre + x.size + sumSizes post := by
  rw [sumSizes_append]
  simp [sumSizes]
  omega

/-- Inserting a freed block (fa, fs) whose chosen successor c is physically
adjacent to it: the scan walks past pre (all addresses below fa, none
adjacent to fa from the left) and merges the freed block with c in place. -/
theorem freeBlock_insert_merge_current (pre : List Block) (fa fs : Nat)
    (c : Block) (post : List Block)
    (hlt : ∀ x ∈ pre, x.addr < fa)
    (hnadj : ∀ x ∈ pre, ¬x.addr + 8 + x.size = fa)
    (hc : c.addr = fa + 8 + fs) (hcgt : fa < c.addr) :
    freeBlock fa fs (pre ++ c :: post) = pre ++ ⟨fa, fs + c.size + 8⟩ :: post := by
  cases pre with
  | nil =>
    simp only [List.nil_append]
    exact freeBlock_cons_lt_adj post hcgt hc
  | cons h pre2 =>
    have hh : h.addr < fa := hlt h (by simp)
    rw [List.cons_append, freeBlock_cons_ge _ (by omega),
      freeScan_walk fa fs pre2 h (c :: post) (fun x hx => hlt x (by simp [hx])) hh]
    have hqmem := getLastD_mem pre2 h
    have hqlt : (pre2.getLastD h).addr < fa := hlt _ hqmem
    have hqnadj : ¬(pre2.getLastD h).addr + 8 + (pre2.getLastD h).size = fa :=
      hnadj _ hqmem
    rw [freeScan_break_c post hqlt hcgt hc (fun he => hqnadj he.symm),
      dropLast_append_getLastD pre2 h (⟨fa, fs + c.size + 8⟩ :: post)]
    rfl

/-- Inserting a freed block (fa, fs) adjacent to nothing: the scan walks
past pre and chains the block between pre and post unchanged. -/
theorem freeBlock_insert_plain (pre : List Block) (fa fs : Nat)
    (post : List Block)
    (hlt : ∀ x ∈ pre, x.addr < fa)
    (hnadj : ∀ x ∈ pre, ¬x.addr + 8 + x.size = fa)
    (hgt : ∀ x ∈ post, fa < x.addr)
    (hnadj2 : ∀ x ∈ post, ¬x.addr = fa + 8 + fs) :
    freeBlock fa fs (pre ++ post) = pre ++ ⟨fa, fs⟩ :: post := by
  cases pre with
  | nil =>
    cases post with
    | nil => rfl
    | cons c post2 =>
      have hcgt : fa < c.addr := hgt c (by simp)
      have hcn : ¬c.addr = fa + 8 + fs := hnadj2 c (by simp)
      simp only [List.nil_append]
      exact freeBlock_cons_lt_nadj post2 hcgt hcn
  | cons h pre2 =>
    have hh : h.addr < fa := hlt h (by simp)
    rw [List.cons_append, freeBlock_cons_ge _ (by omega),
      freeScan_walk fa fs pre2 h post (fun x hx => hlt x (by simp [hx])) hh]
    have hqmem := getLastD_mem pre2 h
    have hqlt : (pre2.getLastD h).addr < fa := hlt _ hqmem
    have hqnadj : ¬(pre2.getLastD h).addr + 8 + (pre2.getLastD h).size = fa :=
      hnadj _ hqmem
    cases post with
    | nil =>
      rw [freeScan_nil, if_neg (fun he => hqnadj he.symm),
        dropLast_append_getLastD pre2 h [⟨fa, fs⟩]]
      rfl
    | cons c post2 =>
      have hcgt : fa < c.addr := hgt c (by simp)
      have hcn : ¬c.addr = fa + 8 + fs := hnadj2 c (by simp)
      rw [freeScan_break_none post2 hqlt hcgt hcn (fun he => hqnadj he.symm),
        dropLast_append_getLastD pre2 h (⟨fa, fs⟩ :: c :: post2)]
      rfl

/-- C3 counterexample: an exact-fit allocation removes a block of exactly
the rounded size S from the free list, so reportFreeMemory drops by S and
not by S + 8 as claimed: from the free list [(8,16)] with total 16,
allocating 16 empties the list and the total becomes 0, a decrease of 16
rather than 24, and the matching free restores 16, not 24. -/
theorem C3_accounting_counterexample :
    (reportFreeMemory ⟨[⟨8, 16⟩], 65536, true, []⟩).1 = 16 ∧
    allocateMemory 16 ⟨[⟨8, 16⟩], 65536, true, []⟩ =
      (some 16, ⟨[], 65536, true, []⟩) ∧
    (reportFreeMemory ⟨[], 65536, true, []⟩).1 = 0 ∧
    (reportFreeMemory ⟨[], 65536, true, []⟩).1 + (16 + 8) ≠
      (reportFreeMemory ⟨[⟨8, 16⟩], 65536, true, []⟩).1 ∧
    freeMemory 16 16 ⟨[], 65536, true, []⟩ = ⟨[⟨8, 16⟩], 65536, true, []⟩ := by
  decide

/-- C3 amended: write S for the rounded request.  When the first-fit block
is split, reportFreeMemory decreases by exactly S + 8 and the matching
immediate free of the returned pointer restores exactly S + 8.  When the
first-fit block is an exact match at an interior node, the decrease and
the restoration are exactly S (the block of size S leaves and re-enters
the list unchanged; its header never stops being part of the same block).
The non-adjacency hypotheses on the neighbours of b are invariant 1 of the
specification (no two unmerged adjacent free blocks); the address ordering
hypotheses are invariant 3. -/
theorem C3_accounting_amended (st : AllocState) (n : Nat) (pre post : List Block)
    (b : Block)
    (hinit : st.initialised = true)
    (hfl : st.freeList = pre ++ b :: post)
    (hfirst : ∀ x ∈ pre, x.size < round8 n)
    (hpre_lt : ∀ x ∈ pre, x.addr < b.addr)
    (hpre_nadj : ∀ x ∈ pre, ¬x.addr + 8 + x.size = b.addr)
    (hpost_gt : ∀ x ∈ post, b.addr < x.addr)
    (hpost_nadj : ∀ x ∈ post, ¬x.addr = b.addr + 8 + b.size)
    (hb8 : b.size % 8 = 0) :
    (round8 n < b.size →
      (allocateMemory n st).1 = some (b.addr + 8) ∧
      (reportFreeMemory (allocateMemory n st).2).1 + (round8 n + 8) =
        (reportFreeMemory st).1 ∧
      (reportFreeMemory
          (freeMemory (b.addr + 8) (round8 n) (allocateMemory n st).2)).1 =
        (reportFreeMemory st).1) ∧
    (b.size = round8 n → pre ≠ [] →
      (allocateMemory n st).1 = some (b.addr + 8) ∧
      (reportFreeMemory (allocateMemory n st).2).1 + round8 n =
        (reportFreeMemory st).1 ∧
      (reportFreeMemory
          (freeMemory (b.addr + 8) (round8 n) (allocateMemory n st).2)).1 =
        (reportFreeMemory st).1) := by
  have hS8 : round8 n % 8 = 0 := round8_mod n
  have hne : st.freeList ≠ [] := by rw [hfl]; simp
  have hrep0 : (reportFreeMemory st).1 = sumSizes pre + b.size + sumSizes post := by
    rw [reportFreeMemory_of_init hinit, hfl, sumSizes_middle]
  constructor
  · intro hgt
    have hsz : round8 n + 8 ≤ b.size := by omega
    have hs := allocScan_split pre b post hfirst hgt
    rw [← hfl] at hs
    have halloc := allocateMemory_scan_some hinit hne hs
    rw [halloc]
    refine ⟨rfl, ?_, ?_⟩
    · rw [reportFreeMemory_of_init (by simpa using hinit)]
      dsimp only
      rw [sumSizes_middle, hrep0]
      dsimp only
      omega
    · rw [freeMemory_of_init _ _ (by simpa using hinit) (by omega)]
      dsimp only
      have efa : b.addr + 8 - 8 = b.addr := by omega
      have hc : (⟨b.addr + (round8 n + 8), b.size - (round8 n + 8)⟩ : Block).addr =
          b.addr + 8 + round8 n := by
        show b.addr + (round8 n + 8) = b.addr + 8 + round8 n; omega
      have hcgt : b.addr < (⟨b.addr + (round8 n + 8),
          b.size - (round8 n + 8)⟩ : Block).addr := by
        show b.addr < b.addr + (round8 n + 8); omega
      rw [efa, freeBlock_insert_merge_current pre b.addr (round8 n) _ post
        hpre_lt hpre_nadj hc hcgt]
      rw [reportFreeMemory_of_init (by simpa using hinit)]
      dsimp only
      rw [sumSizes_middle, hrep0]
      dsimp only
      omega
  · intro hexact hpre_ne
    have hs := allocScan_exact pre b post hfirst hexact
    rw [if_neg hpre_ne, ← hfl] at hs
    have halloc := allocateMemory_scan_some hinit hne hs
    rw [halloc]
    refine ⟨rfl, ?_, ?_⟩
    · rw [reportFreeMemory_of_init (by simpa using hinit)]
      dsimp only
      rw [sumSizes_append, hrep0]
      omega
    · rw [freeMemory_of_init _ _ (by simpa using hinit) (by omega)]
      dsimp only
      have efa : b.addr + 8 - 8 = b.addr := by omega
      have hnadj2 : ∀ x ∈ post, ¬x.addr = b.addr + 8 + round8 n := by
        intro x hx
        have := hpost_nadj x hx
        rw [hexact] at this
        exact this
      rw [efa, freeBlock_insert_plain pre b.addr (round8 n) post
        hpre_lt hpre_nadj hpost_gt hnadj2]
      rw [reportFreeMemory_of_init (by simpa using hinit)]
      dsimp only
      rw [sumSizes_middle, hrep0]
      dsimp only
      omega

theorem C3_accounting_amended_witness :
    (allocateMemory 32 ⟨[⟨8, 16⟩, ⟨48, 32⟩, ⟨104, 40⟩], 65536, true, []⟩).1 =
      some 56 ∧
    (reportFreeMemory
        (allocateMemory 32 ⟨[⟨8, 16⟩, ⟨48, 32⟩, ⟨104, 40⟩], 65536, true, []⟩).2).1
      + 32 =
      (reportFreeMemory ⟨[⟨8, 16⟩, ⟨48, 32⟩, ⟨104, 40⟩], 65536, true, []⟩).1 ∧
    (reportFreeMemory (freeMemory 56 32
        (allocateMemory 32 ⟨[⟨8, 16⟩, ⟨48, 32⟩, ⟨104, 40⟩], 65536, true, []⟩).2)).1 =
      (reportFreeMemory ⟨[⟨8, 16⟩, ⟨48, 32⟩, ⟨104, 40⟩], 65536, true, []⟩).1 := by
  have h := (C3_accounting_amended ⟨[⟨8, 16⟩, ⟨48, 32⟩, ⟨104, 40⟩], 65536, true, []⟩
    32 [⟨8, 16⟩] [⟨104, 40⟩] ⟨48, 32⟩ rfl rfl (by decide) (by decide) (by decide)
    (by decide) (by decide) (by decide)).2 (by decide) (by decide)
  exact h

/-- C10 counterexample: with the reachable free list [(24,0), (104,40)]
(a zero-size block at the head, a 40-byte block behind it), the zero-byte
request does return a non-null pointer, but the exact match at the head
hits the line-94 bug and empties the whole list: the free total drops by
40 (48 + 16 counting headers), not by one header. -/
theorem C10_zero_alloc_counterexample :
    allocateMemory 0 ⟨[⟨24, 0⟩, ⟨104, 40⟩], 65536, true, []⟩ =
      (some 32, ⟨[], 65536, true, []⟩) ∧
    (reportFreeMemory ⟨[], 65536, true, []⟩).1 + 8 ≠
      (reportFreeMemory ⟨[⟨24, 0⟩, ⟨104, 40⟩], 65536, true, []⟩).1 ∧
    freeBytes ([] : List Block) + 8 ≠ freeBytes [⟨24, 0⟩, ⟨104, 40⟩] := by
  decide

/-- C10 amended: with a non-empty free list whose head block has a size
that is a multiple of 8, allocateMemory 0 always returns the non-null
payload pointer of the head block, with no growth attempt.  When the head
size is positive the head is split and exactly one header (8 bytes) of
free-list-held store is consumed; when the head size is 0 the request
exact-matches the head and, through the line-94 head bug (see C1), the
whole free list is emptied, so the 8-byte consumption only holds in the
split case (or for a singleton list). -/
theorem C10_zero_alloc_amended (st : AllocState) (h : Block) (rest : List Block)
    (hinit : st.initialised = true) (hfl : st.freeList = h :: rest)
    (h8 : h.size % 8 = 0) :
    (allocateMemory 0 st).1 = some (h.addr + 8) ∧
    (0 < h.size →
      (allocateMemory 0 st).2.freeList = ⟨h.addr + 8, h.size - 8⟩ :: rest ∧
      freeBytes ((allocateMemory 0 st).2.freeList) + 8 = freeBytes st.freeList) ∧
    (h.size = 0 → (allocateMemory 0 st).2.freeList = []) := by
  have hne : st.freeList ≠ [] := by rw [hfl]; simp
  have hr0 : round8 0 = 0 := rfl
  by_cases hz : h.size = 0
  · have hs : allocScan (round8 0) st.freeList = some ([], h.addr + 8) := by
      rw [hfl, show h :: rest = [] ++ h :: rest from rfl,
        allocScan_exact [] h rest (by simp) (by rw [hr0, hz])]
      simp
    have halloc := allocateMemory_scan_some hinit hne hs
    rw [halloc]
    refine ⟨rfl, ?_, fun _ => rfl⟩
    intro hpos
    omega
  · have hgt : round8 0 < h.size := by rw [hr0]; omega
    have hs : allocScan (round8 0) st.freeList =
        some (⟨h.addr + 8, h.size - 8⟩ :: rest, h.addr + 8) := by
      rw [hfl, show h :: rest = [] ++ h :: rest from rfl,
        allocScan_split [] h rest (by simp) hgt]
      rw [hr0]
      simp
    have halloc := allocateMemory_scan_some hinit hne hs
    rw [halloc]
    refine ⟨rfl, fun _ => ⟨rfl, ?_⟩, fun hz2 => absurd hz2 hz⟩
    rw [hfl]
    simp only [freeBytes]
    omega

theorem C10_zero_alloc_amended_witness :
    (allocateMemory 0 ⟨[⟨8, 16⟩, ⟨104, 40⟩], 65536, true, []⟩).1 = some 16 ∧
    (allocateMemory 0 ⟨[⟨8, 16⟩, ⟨104, 40⟩], 65536, true, []⟩).2.freeList =
      [⟨16, 8⟩, ⟨104, 40⟩] ∧
    freeBytes ((allocateMemory 0
        ⟨[⟨8, 16⟩, ⟨104, 40⟩], 65536, true, []⟩).2.freeList) + 8 =
      freeBytes [⟨8, 16⟩, ⟨104, 40⟩] := by
  have h := C10_zero_alloc_amended ⟨[⟨8, 16⟩, ⟨104, 40⟩], 65536, true, []⟩
    ⟨8, 16⟩ [⟨104, 40⟩] rfl rfl (by decide)
  have h2 := h.2.1 (by decide)
  exact ⟨h.1, h2.1, h2.2⟩

theorem goodLB_cons_iff {lo L : Nat} {b : Block} {rest : List Block} :
    goodLB lo L (b :: rest) = true ↔
      lo ≤ b.addr ∧ b.addr + 8 + b.size ≤ L ∧ b.size % 8 = 0 ∧
        goodLB (b.addr + 8 + b.size) L rest = true := by
  simp only [goodLB, Bool.and_eq_true, decide_eq_true_eq]
  tauto

theorem goodLB_mk_cons_iff {lo L a s : Nat} {rest : List Block} :
    goodLB lo L (⟨a, s⟩ :: rest) = true ↔
      lo ≤ a ∧ a + 8 + s ≤ L ∧ s % 8 = 0 ∧ goodLB (a + 8 + s) L rest = true :=
  goodLB_cons_iff

theorem goodLB_mono_lo {lo lo' L : Nat} {l : List Block} (h : lo' ≤ lo)
    (hg : goodLB lo L l = true) : goodLB lo' L l = true := by
  cases l with
  | nil => rfl
  | cons b rest =>
    rw [goodLB_cons_iff] at hg ⊢
    exact ⟨by omega, hg.2.1, hg.2.2.1, hg.2.2.2⟩

theorem goodLB_mono_L {l : List Block} : ∀ {lo L L' : Nat}, L ≤ L' →
    goodLB lo L l = true → goodLB lo L' l = true := by
  induction l with
  | nil => intro lo L L' h hg; rfl
  | cons b rest ih =>
    intro lo L L' h hg
    rw [goodLB_cons_iff] at hg ⊢
    exact ⟨hg.1, by omega, hg.2.2.1, ih h hg.2.2.2⟩

theorem goodLB_bounds {l : List Block} : ∀ {lo L : Nat}, goodLB lo L l = true →
    ∀ b ∈ l, lo ≤ b.addr ∧ b.addr + 8 + b.size ≤ L ∧ b.size % 8 = 0 := by
  induction l with
  | nil => intro lo L hg b hb; simp at hb
  | cons c rest ih =>
    intro lo L hg b hb
    rw [goodLB_cons_iff] at hg
    rcases List.mem_cons.mp hb with rfl | hb
    · exact ⟨hg.1, hg.2.1, hg.2.2.1⟩
    · have hx := ih hg.2.2.2 b hb
      have h1 := hg.1
      exact ⟨by omega, hx.2.1, hx.2.2⟩

theorem goodLB_sorted {l : List Block} : ∀ {lo L : Nat},
    goodLB lo L l = true → sortedAddrs l = true := by
  induction l with
  | nil => intro lo L h; rfl
  | cons a t ih =>
    intro lo L h
    cases t with
    | nil => rfl
    | cons b r =>
      rw [goodLB_cons_iff] at h
      have h2 := h.2.2.2
      have hb := (goodLB_cons_iff.mp h2).1
      have hs := ih h2
      show (decide (a.addr < b.addr) && sortedAddrs (b :: r)) = true
      rw [hs, Bool.and_true, decide_eq_true_eq]
      omega

theorem allocScanTail_good {br : Nat} (hbr : br % 8 = 0) :
    ∀ (l : List Block) {lo L : Nat} {fl : List Block} {p : Nat},
      allocScanTail br l = some (fl, p) → goodLB lo L l = true →
      goodLB lo L fl = true := by
  intro l
  induction l with
  | nil => intro lo L fl p hs hg; simp [allocScanTail] at hs
  | cons c rest ih =>
    intro lo L fl p hs hg
    rw [goodLB_cons_iff] at hg
    obtain ⟨h1, h2, h3, h4⟩ := hg
    by_cases he : c.size = br
    · rw [allocScanTail_cons_exact rest he] at hs
      simp only [Option.some.injEq, Prod.mk.injEq] at hs
      obtain ⟨h5, h6⟩ := hs
      subst h5
      exact goodLB_mono_lo (by omega) h4
    · by_cases hlt : br < c.size
      · rw [allocScanTail_cons_split rest hlt] at hs
        simp only [Option.some.injEq, Prod.mk.injEq] at hs
        obtain ⟨h5, h6⟩ := hs
        subst h5
        rw [goodLB_mk_cons_iff]
        refine ⟨by omega, by omega, by omega, ?_⟩
        have e : c.addr + (br + 8) + 8 + (c.size - (br + 8)) = c.addr + 8 + c.size := by
          omega
        rw [e]
        exact h4
      · rw [allocScanTail_cons_small rest (by omega)] at hs
        rcases hrec : allocScanTail br rest with _ | ⟨fl2, p2⟩
        · rw [hrec] at hs; simp at hs
        · rw [hrec] at hs
          simp only [Option.some.injEq, Prod.mk.injEq] at hs
          obtain ⟨h5, h6⟩ := hs
          subst h5
          rw [goodLB_cons_iff]
          exact ⟨h1, h2, h3, ih hrec h4⟩

theorem allocScan_good {br : Nat} (hbr : br % 8 = 0) (l : List Block)
    {lo L : Nat} {fl : List Block} {p : Nat}
    (hs : allocScan br l = some (fl, p)) (hg : goodLB lo L l = true) :
    goodLB lo L fl = true := by
  cases l with
  | nil => simp [allocScan] at hs
  | cons c rest =>
    rw [goodLB_cons_iff] at hg
    obtain ⟨h1, h2, h3, h4⟩ := hg
    by_cases he : c.size = br
    · rw [show allocScan br (c :: rest) = some ([], c.addr + 8) from by
        simp only [allocScan, if_pos he]] at hs
      simp only [Option.some.injEq, Prod.mk.injEq] at hs
      obtain ⟨h5, h6⟩ := hs
      subst h5
      rfl
    · by_cases hlt : br < c.size
      · rw [show allocScan br (c :: rest) =
            some (⟨c.addr + (br + 8), c.size - (br + 8)⟩ :: rest, c.addr + 8) from by
          simp only [allocScan, if_neg he, if_pos hlt]] at hs
        simp only [Option.some.injEq, Prod.mk.injEq] at hs
        obtain ⟨h5, h6⟩ := hs
        subst h5
        rw [goodLB_mk_cons_iff]
        refine ⟨by omega, by omega, by omega, ?_⟩
        have e : c.addr + (br + 8) + 8 + (c.size - (br + 8)) = c.addr + 8 + c.size := by
          omega
        rw [e]
        exact h4
      · rw [allocScan_cons_small rest (by omega)] at hs
        rcases hrec : allocScanTail br rest with _ | ⟨fl2, p2⟩
        · rw [hrec] at hs; simp at hs
        · rw [hrec] at hs
          simp only [Option.some.injEq, Prod.mk.injEq] at hs
          obtain ⟨h5, h6⟩ := hs
          subst h5
          rw [goodLB_cons_iff]
          exact ⟨h1, h2, h3, allocScanTail_good hbr rest hrec h4⟩

theorem freeScan_good {fa fs L : Nat} (hfL : fa + 8 + fs ≤ L) (hfs8 : fs % 8 = 0) :
    ∀ (l : List Block) (p : Block) (lo : Nat),
      lo ≤ p.addr → p.addr + 8 + p.size ≤ L → p.size % 8 = 0 →
      p.addr + 8 + p.size ≤ fa →
      goodLB (p.addr + 8 + p.size) L l = true →
      (∀ b ∈ l, b.addr + 8 + b.size ≤ fa ∨ fa + 8 + fs ≤ b.addr) →
      goodLB lo L (freeScan fa fs p l) = true := by
  intro l
  induction l with
  | nil =>
    intro p lo hlo hpL hp8 hpf hg hd
    rw [freeScan_nil]
    by_cases hadj : fa = p.addr + 8 + p.size
    · rw [if_pos hadj, goodLB_mk_cons_iff]
      exact ⟨hlo, by omega, by omega, rfl⟩
    · rw [if_neg hadj, goodLB_cons_iff]
      refine ⟨hlo, hpL, hp8, ?_⟩
      rw [goodLB_mk_cons_iff]
      exact ⟨hpf, by omega, hfs8, rfl⟩
  | cons c rest ih =>
    intro p lo hlo hpL hp8 hpf hg hd
    rw [goodLB_cons_iff] at hg
    obtain ⟨h1, h2, h3, h4⟩ := hg
    have hdc := hd c (by simp)
    have hdrest : ∀ b ∈ rest, b.addr + 8 + b.size ≤ fa ∨ fa + 8 + fs ≤ b.addr :=
      fun b hb => hd b (by simp [hb])
    by_cases hbc : p.addr < fa ∧ fa < c.addr
    · obtain ⟨hb1, hb2⟩ := hbc
      have hfc : fa + 8 + fs ≤ c.addr := by
        rcases hdc with hx | hx
        · omega
        · exact hx
      by_cases hac : c.addr = fa + 8 + fs
      · by_cases hap : fa = p.addr + 8 + p.size
        · rw [freeScan_break_cc rest hb1 hb2 hac hap, goodLB_mk_cons_iff]
          refine ⟨hlo, by omega, by omega, ?_⟩
          have e : p.addr + 8 + (p.size + (fs + c.size + 8) + 8) =
              c.addr + 8 + c.size := by omega
          rw [e]
          exact h4
        · rw [freeScan_break_c rest hb1 hb2 hac hap, goodLB_cons_iff]
          refine ⟨hlo, hpL, hp8, ?_⟩
          rw [goodLB_mk_cons_iff]
          refine ⟨hpf, by omega, by omega, ?_⟩
          have e : fa + 8 + (fs + c.size + 8) = c.addr + 8 + c.size := by omega
          rw [e]
          exact h4
      · by_cases hap : fa = p.addr + 8 + p.size
        · rw [freeScan_break_p rest hb1 hb2 hac hap, goodLB_mk_cons_iff]
          refine ⟨hlo, by omega, by omega, ?_⟩
          rw [goodLB_cons_iff]
          exact ⟨by omega, h2, h3, h4⟩
        · rw [freeScan_break_none rest hb1 hb2 hac hap, goodLB_cons_iff]
          refine ⟨hlo, hpL, hp8, ?_⟩
          rw [goodLB_mk_cons_iff]
          refine ⟨hpf, by omega, hfs8, ?_⟩
          rw [goodLB_cons_iff]
          exact ⟨by omega, h2, h3, h4⟩
    · have hpa : p.addr < fa := by omega
      have hge : ¬fa < c.addr := fun hlt => hbc ⟨hpa, hlt⟩
      have hcf : c.addr + 8 + c.size ≤ fa := by
        rcases hdc with hx | hx
        · exact hx
        · omega
      rw [freeScan_step rest hbc, goodLB_cons_iff]
      refine ⟨hlo, hpL, hp8, ?_⟩
      exact ih c (p.addr + 8 + p.size) h1 h2 h3 (by omega) h4 hdrest

theorem freeBlock_good {fa fs L : Nat} (l : List Block)
    (hg : goodLB 0 L l = true)
    (hd : ∀ b ∈ l, b.addr + 8 + b.size ≤ fa ∨ fa + 8 + fs ≤ b.addr)
    (hfL : fa + 8 + fs ≤ L) (hfs8 : fs % 8 = 0) :
    goodLB 0 L (freeBlock fa fs l) = true := by
  cases l with
  | nil =>
    rw [show freeBlock fa fs [] = [⟨fa, fs⟩] from rfl, goodLB_mk_cons_iff]
    exact ⟨by omega, hfL, hfs8, rfl⟩
  | cons h rest =>
    rw [goodLB_cons_iff] at hg
    obtain ⟨h1, h2, h3, h4⟩ := hg
    have hdh := hd h (by simp)
    by_cases hlt : fa < h.addr
    · have hfh : fa + 8 + fs ≤ h.addr := by
        rcases hdh with hx | hx
        · omega
        · exact hx
      by_cases hadj : h.addr = fa + 8 + fs
      · rw [freeBlock_cons_lt_adj rest hlt hadj, goodLB_mk_cons_iff]
        refine ⟨by omega, by omega, by omega, ?_⟩
        have e : fa + 8 + (fs + h.size + 8) = h.addr + 8 + h.size := by omega
        rw [e]
        exact h4
      · rw [freeBlock_cons_lt_nadj rest hlt hadj, goodLB_mk_cons_iff]
        refine ⟨by omega, hfL, hfs8, ?_⟩
        rw [goodLB_cons_iff]
        exact ⟨by omega, h2, h3, h4⟩
    · have hhf : h.addr + 8 + h.size ≤ fa := by
        rcases hdh with hx | hx
        · exact hx
        · omega
      rw [freeBlock_cons_ge rest hlt]
      exact freeScan_good hfL hfs8 rest h 0 (by omega) h2 h3 hhf h4
        (fun b hb => hd b (by simp [hb]))

theorem wfState_iff {st : AllocState} :
    wfState st = true ↔
      16 ≤ st.memLength ∧ st.memLength % 8 = 0 ∧
        goodLB 0 st.memLength st.freeList = true := by
  simp only [wfState, Bool.and_eq_true, decide_eq_true_eq]
  tauto

theorem wf_ensureInitialised {st : AllocState} (h : wfState st = true) :
    wfState (ensureInitialised st) = true := by
  rw [wfState_iff] at h
  obtain ⟨h1, h2, h3⟩ := h
  unfold ensureInitialised
  split
  · rw [wfState_iff]; exact ⟨h1, h2, h3⟩
  · rw [wfState_iff]
    refine ⟨h1, h2, ?_⟩
    dsimp only
    rw [goodLB_mk_cons_iff]
    exact ⟨by omega, by omega, by omega, rfl⟩

/-- The growth insertion: folding a new region of k pages starting at the
old store end into the free list of a well-formed initialised state keeps
the state well formed. -/
theorem wf_grow_insert (st : AllocState) (rest : List Bool) (k : Nat)
    (hinit : st.initialised = true) (h : wfState st = true) (hk : 1 ≤ k) :
    wfState (freeMemory (st.memLength + 8)
      (st.memLength + k * 65536 - st.memLength - 8)
      ⟨st.freeList, st.memLength + k * 65536, st.initialised, rest⟩) = true := by
  rw [wfState_iff] at h
  obtain ⟨h1, h2, h3⟩ := h
  have hinit2 : (⟨st.freeList, st.memLength + k * 65536, st.initialised,
      rest⟩ : AllocState).initialised = true := hinit
  rw [freeMemory_of_init _ _ hinit2 (by omega)]
  rw [wfState_iff]
  dsimp only
  have e : st.memLength + 8 - 8 = st.memLength := by omega
  rw [e]
  refine ⟨by omega, by omega, ?_⟩
  apply freeBlock_good
  · exact goodLB_mono_L (by omega) h3
  · intro bb hbb
    exact Or.inl (goodLB_bounds h3 bb hbb).2.1
  · omega
  · omega

theorem wf_getMoreMemory {st : AllocState} (b : Nat)
    (hinit : st.initialised = true) (h : wfState st = true) :
    wfState (getMoreMemory b st).1 = true := by
  rcases hgo : st.growOks with _ | ⟨ok, rest⟩
  · simpa [getMoreMemory, hgo] using h
  · cases ok
    · simp only [getMoreMemory, hgo, Bool.false_eq_true, if_false]
      rw [wfState_iff] at h ⊢
      exact h
    · have hK : 1 ≤ (if (b + 8) / 65536 * 65536 < b + 8
          then (b + 8) / 65536 + 1 else (b + 8) / 65536) := by
        by_cases hcond : (b + 8) / 65536 * 65536 < b + 8
        · rw [if_pos hcond]; omega
        · rw [if_neg hcond]; omega
      simp only [getMoreMemory, hgo, if_true]
      exact wf_grow_insert st rest _ hinit h hK

theorem wf_allocGo : ∀ fuel n st, wfState st = true →
    wfState (allocGo fuel n st).2 = true := by
  intro fuel
  induction fuel with
  | zero => intro n st h; simpa using h
  | succ fuel ih =>
    intro n st h
    simp only [allocGo]
    have hwfe : wfState (ensureInitialised st) = true := wf_ensureInitialised h
    have hine : (ensureInitialised st).initialised = true :=
      ensureInitialised_initialised st
    have hbr8 : round8 n % 8 = 0 := round8_mod n
    by_cases hE : (ensureInitialised st).freeList = []
    · simp only [if_pos hE]
      rcases hg1 : getMoreMemory (round8 n + 8) (ensureInitialised st) with ⟨st1, flag1⟩
      have hwf1 : wfState st1 = true := by
        have hx := wf_getMoreMemory (round8 n + 8) hine hwfe
        rw [hg1] at hx; exact hx
      have hin1 : st1.initialised = true := by
        have hx := getMoreMemory_initialised (b := round8 n + 8) hine
        rw [hg1] at hx; exact hx
      cases flag1
      · simpa using hwf1
      · rcases hs : allocScan (round8 n) st1.freeList with _ | ⟨fl, p⟩
        · simp only [hs]
          rcases hg2 : getMoreMemory (round8 n) st1 with ⟨st2, flag2⟩
          have hwf2 : wfState st2 = true := by
            have hx := wf_getMoreMemory (round8 n) hin1 hwf1
            rw [hg2] at hx; exact hx
          cases flag2
          · simpa using hwf2
          · exact ih _ st2 hwf2
        · simp only [hs]
          rw [wfState_iff]
          rcases wfState_iff.mp hwf1 with ⟨w1, w2, w3⟩
          exact ⟨w1, w2, allocScan_good hbr8 st1.freeList hs w3⟩
    · simp only [if_neg hE]
      rcases hs : allocScan (round8 n) (ensureInitialised st).freeList with _ | ⟨fl, p⟩
      · simp only [hs]
        rcases hg3 : getMoreMemory (round8 n) (ensureInitialised st) with ⟨st3, flag3⟩
        have hwf3 : wfState st3 = true := by
          have hx := wf_getMoreMemory (round8 n) hine hwfe
          rw [hg3] at hx; exact hx
        cases flag3
        · simpa using hwf3
        · exact ih _ st3 hwf3
      · simp only [hs]
        rw [wfState_iff]
        rcases wfState_iff.mp hwfe with ⟨w1, w2, w3⟩
        exact ⟨w1, w2, allocScan_good hbr8 (ensureInitialised st).freeList hs w3⟩

theorem wf_allocateMemory (n : Nat) (st : AllocState) (h : wfState st = true) :
    wfState (allocateMemory n st).2 = true :=
  wf_allocGo _ n st h

theorem validFree_iff {st : AllocState} {p s : Nat} :
    validFree st p s = true ↔
      st.initialised = true ∧ 8 ≤ p ∧ s % 8 = 0 ∧
        p - 8 + 8 + s ≤ st.memLength ∧
        ∀ b ∈ st.freeList,
          b.addr + 8 + b.size ≤ p - 8 ∨ p - 8 + 8 + s ≤ b.addr := by
  simp only [validFree, Bool.and_eq_true, decide_eq_true_eq, List.all_eq_true,
    Bool.or_eq_true]
  tauto

theorem wf_freeMemory_valid {st : AllocState} {p s : Nat}
    (hv : validFree st p s = true) (h : wfState st = true) :
    wfState (freeMemory p s st) = true := by
  obtain ⟨h1, h2, h3, h4, h5⟩ := validFree_iff.mp hv
  rw [freeMemory_of_init _ _ h1 (by omega)]
  rw [wfState_iff] at h ⊢
  obtain ⟨w1, w2, w3⟩ := h
  exact ⟨w1, w2, freeBlock_good st.freeList w3 h5 h4 h3⟩

/-- C7: free-list header addresses are strictly increasing from head to
tail, and the ordering is preserved by every allocator operation.  The
hypothesis wfState is the inductive strengthening of the ordering that the
code actually maintains: blocks ordered, inside the store, sizes multiples
of 8.  The conclusions cover the ordering before the operation and after
allocateMemory with any request, freeMemory of the null sentinel,
freeMemory of a valid previously-allocated pointer, reportFreeMemory, and
the growth insertion getMoreMemory (which the code only runs on an
initialised state: it is static and called after the guard). -/
theorem C7_sorted_invariant (st : AllocState) (n m p s : Nat)
    (hwf : wfState st = true) :
    sortedAddrs st.freeList = true ∧
    (wfState (allocateMemory n st).2 = true ∧
      sortedAddrs ((allocateMemory n st).2).freeList = true) ∧
    (wfState (freeMemory 0 s st) = true ∧
      sortedAddrs (freeMemory 0 s st).freeList = true) ∧
    (validFree st p s = true →
      wfState (freeMemory p s st) = true ∧
      sortedAddrs (freeMemory p s st).freeList = true) ∧
    (wfState (reportFreeMemory st).2 = true ∧
      sortedAddrs ((reportFreeMemory st).2).freeList = true) ∧
    (st.initialised = true →
      wfState (getMoreMemory m st).1 = true ∧
      sortedAddrs ((getMoreMemory m st).1).freeList = true) := by
  have sorted_of : ∀ st' : AllocState, wfState st' = true →
      sortedAddrs st'.freeList = true := fun st' h =>
    goodLB_sorted (wfState_iff.mp h).2.2
  refine ⟨sorted_of st hwf, ?_, ?_, ?_, ?_, ?_⟩
  · have h := wf_allocateMemory n st hwf
    exact ⟨h, sorted_of _ h⟩
  · have h : wfState (freeMemory 0 s st) = true := by
      have e : freeMemory 0 s st = ensureInitialised st := by simp [freeMemory]
      rw [e]
      exact wf_ensureInitialised hwf
    exact ⟨h, sorted_of _ h⟩
  · intro hv
    have h := wf_freeMemory_valid hv hwf
    exact ⟨h, sorted_of _ h⟩
  · have h : wfState (reportFreeMemory st).2 = true := by
      have e : (reportFreeMemory st).2 = ensureInitialised st := rfl
      rw [e]
      exact wf_ensureInitialised hwf
    exact ⟨h, sorted_of _ h⟩
  · intro hin
    have h := wf_getMoreMemory m hin hwf
    exact ⟨h, sorted_of _ h⟩

theorem C7_sorted_invariant_witness :
    wfState ⟨[⟨32, 65496⟩], 65536, true, []⟩ = true ∧
    validFree ⟨[⟨32, 65496⟩], 65536, true, []⟩ 16 16 = true ∧
    wfState (freeMemory 16 16 ⟨[⟨32, 65496⟩], 65536, true, []⟩) = true ∧
    sortedAddrs (freeMemory 16 16 ⟨[⟨32, 65496⟩], 65536, true, []⟩).freeList = true ∧
    wfState (allocateMemory 24 ⟨[⟨32, 65496⟩], 65536, true, []⟩).2 = true := by
  have H := C7_sorted_invariant ⟨[⟨32, 65496⟩], 65536, true, []⟩ 24 0 16 16 (by decide)
  exact ⟨by decide, by decide, (H.2.2.2.1 (by decide)).1, (H.2.2.2.1 (by decide)).2,
    H.2.1.1⟩
